import Mathlib

/-!
Verification development for the gaia2 decentralized-training core.

The central component is `PendingWork` (src/src/pendingwork.py): a registry
of one FIFO `UpdateQueue` per source device, with a pending-count counter,
admission control, and a leader-driven freeze/clear barrier.  The Coordinator
(`Solver` in src/src/ml_thread.py) drains it, aggregates, and evaluates a
convergence predicate over a 50-slot loss window.  The transport handler
`clear_all_queues` (src/main.py) guards the leader-only clear operation.

Embedding conventions: Python dicts are insertion-ordered association lists;
Python ints are `Int`/`Nat`; Python floats are exact rationals; exceptions
become `Except` results paired with the post-state (a raise after a partial
mutation returns the mutated state); the `RLock` and the ml-thread wakeup
(`self.node.condition.notify()`) are concurrency plumbing with no effect on
the registry state and are not modelled.
-/

/-- Opaque ModelUpdate payload: the registry never inspects record contents. -/
abbrev Upd := Nat

/-- Host/device identifier: an opaque string such as "localhost:5000". -/
abbrev Host := String

/-- Modelled from the spec: `src/updatequeue.py` is absent from the source
tree (only its callers are present).  Spec §4.1/§3: an `UpdateQueue` is a
FIFO of records for exactly one device; `enqueue(record)` appends;
`dequeue()` removes and returns the oldest record; `clear()` removes all
records; `length()` is O(1); no internal locking. -/
structure UpdateQueue where
  queue : List Upd
deriving DecidableEq

def UpdateQueue.enqueue (q : UpdateQueue) (u : Upd) : UpdateQueue :=
  ⟨q.queue ++ [u]⟩

def UpdateQueue.len (q : UpdateQueue) : Nat :=
  q.queue.length

def UpdateQueue.clear (_ : UpdateQueue) : UpdateQueue :=
  ⟨[]⟩

/-- The exception classes raised by `PendingWork` (imported from the absent
src/util.py; their names and raise sites are all in src/src/pendingwork.py). -/
inductive PWError
  | DevicePushbackError
  | EmptyQueueError
  | ExtraFatal
deriving DecidableEq

/-- Python `host in self.queues` / `self.queues[host]` on the
insertion-ordered dict. -/
def dictGet : List (Host × UpdateQueue) → Host → Option UpdateQueue
  | [], _ => none
  | kv :: rest, h => if kv.1 = h then some kv.2 else dictGet rest h

/-- Python `self.queues[host] = q`: replaces the value in place when the key
is present, otherwise appends the new binding (insertion-ordered dict). -/
def dictSet : List (Host × UpdateQueue) → Host → UpdateQueue → List (Host × UpdateQueue)
  | [], h, q => [(h, q)]
  | kv :: rest, h, q => if kv.1 = h then (h, q) :: rest else kv :: dictSet rest h q

/-- Sum of the lengths of all queues in the registry. -/
def sumLens (qs : List (Host × UpdateQueue)) : Nat :=
  (qs.map (fun kv => kv.2.len)).sum

/-- The mutable fields of `PendingWork.__init__` (src/src/pendingwork.py
lines 17-28).  `lock` and the back-pointer `node` are not modelled. -/
structure PendingWork where
  queues : List (Host × UpdateQueue)
  my_host : Host
  other_hosts : List Host
  num_devices : Nat
  total_no_of_updates : Int
  min_queue_len : Option Nat
  k : Nat
  leader : Host
  frozen : Bool
deriving DecidableEq

/-- `PendingWork(max_qlen_ratio)` constructor. -/
def PendingWork.init (ratio_k : Nat) : PendingWork :=
  { queues := [], my_host := "", other_hosts := [], num_devices := 0,
    total_no_of_updates := 0, min_queue_len := none, k := ratio_k,
    leader := "", frozen := false }

/-- One iteration of the loop in `_update_min_and_max` (lines 173-178).
NOTE, translated faithfully from the source: the Python loop
`for queue in self.queues` iterates over the dict KEYS, so `len(queue)`
is the length of the host-id string, not of the queue; and once `lo`
reaches `1` the `lo != 1` conjunct stops further decreases. -/
def minStep (lo : Option Nat) (key : Host) : Nat :=
  let v := match lo with
    | none => key.length
    | some x => x
  if key.length < v ∧ v ≠ 1 then key.length else v

/-- `PendingWork._update_min_and_max` (lines 164-179). -/
def PendingWork.update_min_and_max (s : PendingWork) : PendingWork :=
  { s with min_queue_len := s.queues.foldl (fun lo kv => some (minStep lo kv.1)) none }

/-- `PendingWork.setup(my_host, other_hosts, leader)` (lines 30-42). -/
def PendingWork.setup (s : PendingWork) (me : Host) (others : List Host)
    (leader : Host) : PendingWork :=
  let s1 := { s with
    my_host := me,
    other_hosts := others,
    num_devices := 1 + others.length }
  let qs1 := dictSet s1.queues me ⟨[]⟩
  let qs2 := others.foldl (fun acc h => dictSet acc h ⟨[]⟩) qs1
  { s1 with queues := qs2, leader := leader }

/-- `PendingWork.freeze_node` (lines 51-52). -/
def PendingWork.freeze_node (s : PendingWork) : PendingWork :=
  { s with frozen := true }

/-- The insertion tail of `enqueue` (lines 68-71 for a fresh queue with
`q = ⟨[]⟩`, lines 79-87 for an existing queue): append the record, bump
the counter, recompute `min_queue_len`.  (The `condition.notify()` wakeup
between the bump and the recompute touches only the external ml thread.) -/
def PendingWork.enqueue_insert (s : PendingWork) (u : Upd) (host : Host)
    (q : UpdateQueue) : Except PWError Unit × PendingWork :=
  let s1 := { s with
    queues := dictSet s.queues host (q.enqueue u),
    total_no_of_updates := s.total_no_of_updates + 1 }
  (.ok (), s1.update_min_and_max)

/-- The body of `enqueue` after the frozen check (lines 64-88). -/
def PendingWork.enqueue_unfrozen (s : PendingWork) (u : Upd) (host : Host) :
    Except PWError Unit × PendingWork :=
  match dictGet s.queues host with
  | none => s.enqueue_insert u host ⟨[]⟩
  | some q =>
    match s.min_queue_len with
    | some m =>
      if s.k * m < q.len then (.error .DevicePushbackError, s)
      else s.enqueue_insert u host q
    | none => s.enqueue_insert u host q

/-- `PendingWork.enqueue(update, host)` (lines 54-88), frozen check included:
while frozen a non-leader enqueue returns silently, a leader enqueue clears
`frozen` and proceeds down the normal path. -/
def PendingWork.enqueue (s : PendingWork) (u : Upd) (host : Host) :
    Except PWError Unit × PendingWork :=
  if s.frozen then
    if host = s.leader then PendingWork.enqueue_unfrozen { s with frozen := false } u host
    else (.ok (), s)
  else s.enqueue_unfrozen u host

/-- Lines 100-104 of `dequeue`: lazily create an empty queue for an unseen
host and recompute `min_queue_len`; otherwise leave the state alone. -/
def PendingWork.dequeue_lazy (s : PendingWork) (host : Host) : PendingWork :=
  match dictGet s.queues host with
  | none => PendingWork.update_min_and_max { s with queues := dictSet s.queues host ⟨[]⟩ }
  | some _ => s

/-- `PendingWork.dequeue(host)` (lines 90-116).  The lazily created queue
and the `min_queue_len` recompute at line 104 survive a subsequent
`EmptyQueueError`, so the error case returns the partially mutated state. -/
def PendingWork.dequeue (s : PendingWork) (host : Host) :
    Except PWError Upd × PendingWork :=
  if s.total_no_of_updates = 0 then (.error .EmptyQueueError, s)
  else
    match ((dictGet (s.dequeue_lazy host).queues host).getD ⟨[]⟩).queue with
    | [] => (.error .EmptyQueueError, s.dequeue_lazy host)
    | u :: us =>
      (.ok u, PendingWork.update_min_and_max { s.dequeue_lazy host with
        queues := dictSet (s.dequeue_lazy host).queues host ⟨us⟩,
        total_no_of_updates := (s.dequeue_lazy host).total_no_of_updates - 1 })

/-- `PendingWork.dequeue_every_queue` (lines 125-133): the loop subtracts
each queue's length from the counter and clears it; the net effect is
subtracting the sum of all lengths and emptying every queue.  It does NOT
recompute `min_queue_len`. -/
def PendingWork.dequeue_every_queue (s : PendingWork) : PendingWork :=
  { s with
    total_no_of_updates := s.total_no_of_updates - (sumLens s.queues : Int),
    queues := s.queues.map (fun kv => (kv.1, kv.2.clear)) }

/-- `PendingWork.clear_all` (lines 118-123): freeze, then drain.  The call
`self.node.sender_queues.dequeue_every_queue()` drains the external Sender's
outbound queues and does not touch the `PendingWork` state. -/
def PendingWork.clear_all (s : PendingWork) : PendingWork :=
  s.freeze_node.dequeue_every_queue

/-- The selection loop of `dequeue_random` (lines 148-154): walk the queues
in registry order; the queue whose length first exceeds the remaining draw
`r` yields its oldest record, else `r` is reduced by that length. -/
def selectAndDequeue : List (Host × UpdateQueue) → Nat →
    Option (Upd × List (Host × UpdateQueue))
  | [], _ => none
  | (h, q) :: rest, r =>
    if r < q.len then
      match q.queue with
      | [] => none
      | u :: us => some (u, (h, ⟨us⟩) :: rest)
    else
      match selectAndDequeue rest (r - q.len) with
      | none => none
      | some (u, rest1) => some (u, (h, q) :: rest1)

/-- The index of the queue that the selection loop of `dequeue_random`
draws from for a given value `r` of the random draw. -/
def selectIndex : List (Host × UpdateQueue) → Nat → Option Nat
  | [], _ => none
  | (_, q) :: rest, r =>
    if r < q.len then some 0
    else (selectIndex rest (r - q.len)).map (· + 1)

/-- `PendingWork.dequeue_random` (lines 136-162), with the value `r` drawn
by `random.randint(0, max(total_no_of_updates - 1, 0))` passed explicitly. -/
def PendingWork.dequeue_random (s : PendingWork) (r : Nat) :
    Except PWError Upd × PendingWork :=
  if s.total_no_of_updates = 0 then (.error .EmptyQueueError, s)
  else
    match selectAndDequeue s.queues r with
    | none => (.error .ExtraFatal, s)
    | some (u, qs) =>
      let s2 := { s with
        queues := qs,
        total_no_of_updates := s.total_no_of_updates - 1 }
      (.ok u, s2.update_min_and_max)

/-- One public `PendingWork` operation, with any randomness made explicit. -/
inductive Op
  | enq (u : Upd) (host : Host)
  | deq (host : Host)
  | deqRand (r : Nat)
  | deqEvery
  | clearAll

/-- The post-state of one operation (exceptional or not). -/
def applyOp (s : PendingWork) : Op → PendingWork
  | .enq u host => (s.enqueue u host).2
  | .deq host => (s.dequeue host).2
  | .deqRand r => (s.dequeue_random r).2
  | .deqEvery => s.dequeue_every_queue
  | .clearAll => s.clear_all

/-- Run a sequence of operations. -/
def runOps (s : PendingWork) (ops : List Op) : PendingWork :=
  ops.foldl applyOp s

/-- The registry counting invariant: `total_no_of_updates` equals the sum of
the lengths of all queues. -/
abbrev pwInv (s : PendingWork) : Prop :=
  s.total_no_of_updates = (sumLens s.queues : Int)

/-- Every queue in the registry is empty. -/
abbrev allEmpty (s : PendingWork) : Prop :=
  ∀ kv ∈ s.queues, kv.2 = (⟨[]⟩ : UpdateQueue)

/-- The inductive invariant carried through traces: the counting invariant,
plus: a frozen registry has only empty queues and a zero counter. -/
def goodState (s : PendingWork) : Prop :=
  pwInv s ∧ (s.frozen = true → allEmpty s ∧ s.total_no_of_updates = 0)

/-- States reachable from a freshly constructed and set-up registry by any
sequence of public operations. -/
inductive Reachable : PendingWork → Prop
  | setup (ratio_k : Nat) (me : Host) (others : List Host) (leader : Host) :
      Reachable ((PendingWork.init ratio_k).setup me others leader)
  | step {s : PendingWork} (h : Reachable s) (op : Op) : Reachable (applyOp s op)

/-- The minimum of the lengths of all queues in the registry (the value the
spec says `min_queue_len` caches). -/
def specMinQueueLen (s : PendingWork) : Option Nat :=
  match s.queues.map (fun kv => kv.2.len) with
  | [] => none
  | l :: ls => some (ls.foldl Nat.min l)

/-- The state exhibiting the `_update_min_and_max` bug: a fresh registry for
the single host "ab" after one successful enqueue. -/
def C3state : PendingWork :=
  (((PendingWork.init 100).setup "ab" [] "ab").enqueue 0 "ab").2

/-! ### The Coordinator's loss window and convergence predicate -/

/-- Per-minibatch loss values are Python floats; modelled as exact rationals. -/
abbrev Loss := ℚ

/-- `self.ten_recent_loss_list = deque(50*[0.000], 50)`
(src/src/ml_thread.py line 53): 50 zero slots. -/
def initWindow : List Loss := List.replicate 50 0

/-- `deque.appendleft` on a deque with `maxlen = 50`: the new element enters
at index 0 and the element at the right end (the oldest) is discarded when
the deque is full. -/
def appendleft (w : List Loss) (x : Loss) : List Loss := (x :: w).take 50

/-- `Solver.convergent` (src/src/ml_thread.py lines 204-209): index 0 is the
most recently appended (newest) loss, index 49 the oldest surviving one;
the relative difference is taken against slot 49. -/
def convergent (w : List Loss) : Bool :=
  if w.getD 0 0 ≠ 0 ∧ w.getD 49 0 ≠ 0 then
    let diff := w.getD 0 0 - w.getD 49 0
    let diff_percentage := diff / w.getD 49 0
    decide (|diff_percentage| < 2/100)
  else false

/-- The loss window after the losses `ls` have been recorded in arrival
order (each via `appendleft`), starting from the fresh all-zero window. -/
def windowAfter (ls : List Loss) : List Loss := ls.foldl appendleft initWindow

/-- The convergence predicate as claim C6 words it: oldest and newest slots
non-zero, and the difference taken relative to the NEWEST slot. -/
def convergentSpecC6 (w : List Loss) : Bool :=
  if w.getD 49 0 ≠ 0 ∧ w.getD 0 0 ≠ 0 then
    decide (|w.getD 49 0 - w.getD 0 0| / |w.getD 0 0| < 2/100)
  else false

/-- The amended convergence predicate: oldest and newest slots non-zero, and
`|oldest - newest| / |oldest| < 0.02` — relative to the OLDEST slot, which is
what the code computes. -/
def convergentAmended (w : List Loss) : Bool :=
  if w.getD 0 0 ≠ 0 ∧ w.getD 49 0 ≠ 0 then
    decide (|w.getD 49 0 - w.getD 0 0| / |w.getD 49 0| < 2/100)
  else false

/-- A 50-slot window on which the code predicate and the C6 wording differ:
newest slot 1/100, oldest slot 51/5000. -/
def C6window : List Loss := (1/100 : ℚ) :: (List.replicate 48 1 ++ [51/5000])

/-! ### The Coordinator's aggregation sanity check -/

/-- Parameter slots are string indices (`str(idx)`); a delta/tensor blob is
opaque to the flow-control core, modelled as a rational per slot. -/
abbrev Params := List (String × ℚ)

/-- One collected weight entry: `weight[idx]` per slot. -/
abbrev Delta := String → ℚ

/-- One collected metadata entry (device-id to round-counter mapping); only
its count participates in the sanity check. -/
abbrev Meta := List (Host × Nat)

/-- The parameter-update loop of `Solver.aggregate_received_updates`
(src/src/ml_thread.py lines 163-171): each slot gains
`sum(alpha * weight[idx] for alpha, weight in zip(alphas, weight_list))`. -/
def updateParams (params : Params) (alphas : List ℚ) (weight_list : List Delta) : Params :=
  params.map (fun kv =>
    (kv.1, kv.2 + ((alphas.zip weight_list).map (fun aw => aw.1 * aw.2 kv.1)).sum))

/-- The sanity check plus parameter update of
`Solver.aggregate_received_updates` (lines 151-173), acting on the lists
collected earlier in the round (the collection drains `PendingWork` through
`empty_model_and_metadata_from`, which is absent from the source tree; the
check and the update are fully shown).  A `ValueError` is raised before any
slot is touched, so the error case returns the parameters unchanged. -/
def aggregate_check_and_update (alphas : List ℚ) (weight_list : List Delta)
    (metadata_list : List Meta) (params : Params) : Except String Unit × Params :=
  if alphas.length ≠ weight_list.length ∨ weight_list.length ≠ metadata_list.length then
    (.error "Something very wrong with our alphas", params)
  else
    (.ok (), updateParams params alphas weight_list)

/-! ### The transport handler for the leader-only clear -/

/-- The `/clear_all_queues` route handler (src/main.py lines 57-69): reject
a non-leader sender with a message and touch nothing; for the leader, call
`PendingWork.clear_all()`.  (`epoch` is read from the request but unused —
the TODO at line 67.) -/
def clear_all_queues (s : PendingWork) (sender : Host) (_epoch : Nat) :
    String × PendingWork :=
  if sender ≠ s.leader then ("Non-leader tried to clear all queues", s)
  else ("Clear_all_queues is running", s.clear_all)

/-! ### Concrete states used by witnesses -/

/-- A small registry with an admission-relevant cached minimum: host "a" at
length 1, host "b" at length 3, ratio `k = 2`, cached `min_queue_len = 1`. -/
def C2state : PendingWork :=
  { queues := [("a", ⟨[0]⟩), ("b", ⟨[0, 0, 0]⟩)], my_host := "a",
    other_hosts := ["b"], num_devices := 2, total_no_of_updates := 4,
    min_queue_len := some 1, k := 2, leader := "a", frozen := false }

/-- A small registry satisfying the counting invariant: three pending
records across two queues. -/
def C5state : PendingWork :=
  { queues := [("a", ⟨[10]⟩), ("b", ⟨[20, 30]⟩)], my_host := "a",
    other_hosts := ["b"], num_devices := 2, total_no_of_updates := 3,
    min_queue_len := some 1, k := 100, leader := "a", frozen := false }

/-- A reachable frozen state: a fresh two-host registry right after
`clear_all()`. -/
def C4state : PendingWork :=
  applyOp ((PendingWork.init 100).setup "a" ["b"] "a") .clearAll

/-! ### Theorems -/

/-- C2: in a non-frozen state with admission ratio `k` and cached
`min_queue_len = m`, an enqueue to an already-existing queue raises
`DevicePushbackError` and inserts nothing exactly when the queue's current
length is strictly greater than `k * m`; at `k * m` or below it succeeds,
appending the record and bumping the counter. -/
theorem enqueue_admission_control (s : PendingWork) (u : Upd) (host : Host)
    (q : UpdateQueue) (m : Nat) (hf : s.frozen = false)
    (hq : dictGet s.queues host = some q) (hm : s.min_queue_len = some m) :
    (s.k * m < q.len → s.enqueue u host = (.error .DevicePushbackError, s)) ∧
    (q.len ≤ s.k * m → s.enqueue u host =
      (.ok (), PendingWork.update_min_and_max { s with
        queues := dictSet s.queues host (q.enqueue u),
        total_no_of_updates := s.total_no_of_updates + 1 })) := by
  constructor
  · intro h
    simp [PendingWork.enqueue, hf, PendingWork.enqueue_unfrozen, hq, hm, h]
  · intro h
    simp [PendingWork.enqueue, hf, PendingWork.enqueue_unfrozen, hq, hm,
      Nat.not_lt.mpr h, PendingWork.enqueue_insert]

/-- Witness for C2 on `C2state` (ratio 2, cached minimum 1): enqueueing to
"b" at length 3 > 2 pushes back; enqueueing to "a" at length 1 ≤ 2 is
accepted. -/
theorem enqueue_admission_control_witness :
    C2state.enqueue 7 "b" = (.error .DevicePushbackError, C2state) ∧
    (C2state.enqueue 7 "a").1 = .ok () := by
  refine ⟨(enqueue_admission_control C2state 7 "b" ⟨[0, 0, 0]⟩ 1 rfl (by decide) rfl).1
    (by decide), ?_⟩
  rw [(enqueue_admission_control C2state 7 "a" ⟨[0]⟩ 1 rfl (by decide) rfl).2 (by decide)]

/-- C3 (code bug): after one enqueue for host "ab" on a fresh registry, the
cached `min_queue_len` is 2 — the length of the key string "ab" — while the
minimum queue length is 1: `_update_min_and_max` iterates the dict keys, so
`len(queue)` measures the host-id string, contradicting its own doc comment
":brief Recalculate min and max queue lengths.". -/
theorem min_queue_len_key_length_bug :
    C3state.min_queue_len = some 2 ∧ specMinQueueLen C3state = some 1 := by
  constructor <;> rfl

/-- C8: whenever the counts of alpha weights, collected weight entries and
collected metadata entries are not all equal, the aggregation round raises
the fatal `ValueError` and leaves every model parameter unchanged — it
never silently continues into the weighted update. -/
theorem aggregate_mismatch_fatal (alphas : List ℚ) (weight_list : List Delta)
    (metadata_list : List Meta) (params : Params)
    (hmis : alphas.length ≠ weight_list.length ∨
      weight_list.length ≠ metadata_list.length) :
    aggregate_check_and_update alphas weight_list metadata_list params =
      (.error "Something very wrong with our alphas", params) := by
  unfold aggregate_check_and_update
  rw [if_pos hmis]

/-- Witness for C8: one alpha against zero weight entries trips the check
and the single parameter slot keeps its value. -/
theorem aggregate_mismatch_fatal_witness :
    aggregate_check_and_update [1] [] [] [("0", 5)] =
      (.error "Something very wrong with our alphas", [("0", 5)]) :=
  aggregate_mismatch_fatal [1] [] [] [("0", 5)] (Or.inl (by decide))

/-- C9: the `/clear_all_queues` handler rejects a non-leader sender with the
rejection message and mutates nothing (queues, counter and frozen flag are
those of the unchanged state), and invokes `PendingWork.clear_all` exactly
when the sender is the configured leader. -/
theorem clear_all_queues_leader_only (s : PendingWork) (sender : Host)
    (epoch : Nat) :
    (sender ≠ s.leader → clear_all_queues s sender epoch =
      ("Non-leader tried to clear all queues", s)) ∧
    (sender = s.leader → clear_all_queues s sender epoch =
      ("Clear_all_queues is running", s.clear_all)) := by
  constructor <;> intro h <;> simp [clear_all_queues, h]

/-- Witness for C9 on `C2state` (leader "a"): sender "z" is rejected with
the state untouched; sender "a" reaches `clear_all`. -/
theorem clear_all_queues_leader_only_witness :
    clear_all_queues C2state "z" 0 =
      ("Non-leader tried to clear all queues", C2state) ∧
    clear_all_queues C2state "a" 0 =
      ("Clear_all_queues is running", C2state.clear_all) :=
  ⟨(clear_all_queues_leader_only C2state "z" 0).1 (by decide),
   (clear_all_queues_leader_only C2state "a" 0).2 rfl⟩

/-- C6 counterexample: on the concrete 50-slot window `C6window` (newest
slot 1/100, oldest slot 51/5000) the code's `convergent` returns `true`
while the predicate worded in C6 — relative difference taken against the
NEWEST slot — is `false`: the code divides by the oldest slot. -/
theorem convergent_divides_by_oldest_cex :
    convergent C6window = true ∧ convergentSpecC6 C6window = false := by
  have h1 : |(1 : ℚ)/5000| = 1/5000 := abs_of_pos (by norm_num)
  have h2 : |(1 : ℚ)/100| = 1/100 := abs_of_pos (by norm_num)
  constructor
  · norm_num [convergent, C6window, abs_lt]
  · norm_num [convergentSpecC6, C6window, h1, h2]

/-- C6 as amended: the convergence predicate holds exactly when both the
oldest and the newest slots are non-zero and
`|oldest - newest| / |oldest| < 0.02` (the relative difference is taken
against the oldest slot, index 49). -/
theorem convergent_eq_amended (w : List Loss) :
    convergent w = convergentAmended w := by
  unfold convergent convergentAmended
  by_cases h : w.getD 0 0 ≠ 0 ∧ w.getD 49 0 ≠ 0
  · rw [if_pos h, if_pos h]
    have habs : |(w.getD 0 0 - w.getD 49 0) / w.getD 49 0| =
        |w.getD 49 0 - w.getD 0 0| / |w.getD 49 0| := by
      rw [abs_div, abs_sub_comm]
    exact decide_eq_decide.mpr (by rw [habs])
  · rw [if_neg h, if_neg h]

/-- `appendleft` shifts every surviving slot one position to the right. -/
theorem appendleft_getD (w : List Loss) (a : Loss) (j : Nat) (h1 : 1 ≤ j)
    (h2 : j < 50) :
    (appendleft w a).getD j 0 = w.getD (j - 1) 0 := by
  unfold appendleft
  rcases j with _ | j
  · omega
  · rw [List.getD_eq_getElem?_getD, List.getD_eq_getElem?_getD,
      List.getElem?_take_of_lt h2, List.getElem?_cons_succ, Nat.add_sub_cancel]

/-- After fewer than 50 `appendleft`s onto a full window, slot 49 still
holds the value that started `ls.length` positions to its left. -/
theorem foldl_appendleft_getD (ls : List Loss) (w : List Loss)
    (hw : w.length = 50) (h : ls.length < 50) :
    (ls.foldl appendleft w).getD 49 0 = w.getD (49 - ls.length) 0 := by
  induction ls generalizing w with
  | nil => simp
  | cons a ls ih =>
    rw [List.foldl_cons]
    have hlen : (appendleft w a).length = 50 := by
      rw [appendleft, List.length_take, List.length_cons, hw]
      omega
    have hls : ls.length < 50 := by
      simp only [List.length_cons] at h
      omega
    have hlt : ls.length ≤ 48 := by
      simp only [List.length_cons] at h
      omega
    rw [ih (appendleft w a) hlen hls]
    rw [appendleft_getD w a (49 - ls.length) (by omega) (by omega)]
    have harith : 49 - ls.length - 1 = 49 - (a :: ls).length := by
      simp only [List.length_cons]
      omega
    rw [harith]

/-- C10: the convergence predicate is `false` whenever fewer than 50
minibatch losses have been recorded since construction — the oldest slot
(index 49) still holds its initial zero, so the non-zero guard fails. -/
theorem not_convergent_before_fifty_losses (ls : List Loss)
    (h : ls.length < 50) :
    convergent (windowAfter ls) = false := by
  have h49 : (windowAfter ls).getD 49 0 = 0 := by
    rw [windowAfter, foldl_appendleft_getD ls initWindow (by simp [initWindow]) h]
    rw [initWindow, List.getD_eq_getElem?_getD, List.getElem?_replicate]
    split <;> rfl
  unfold convergent
  rw [if_neg]
  intro hcon
  exact hcon.2 h49

/-- Witness for C10: after recording a single loss the predicate is still
`false`. -/
theorem not_convergent_before_fifty_losses_witness :
    [(1 : Loss)].length < 50 ∧ convergent (windowAfter [(1 : Loss)]) = false :=
  ⟨by decide, not_convergent_before_fifty_losses [(1 : Loss)] (by decide)⟩

/-! ### Helper lemmas: the ordered-dict model and queue sums -/

theorem dictGet_dictSet_self (qs : List (Host × UpdateQueue)) (h : Host)
    (q : UpdateQueue) : dictGet (dictSet qs h q) h = some q := by
  induction qs with
  | nil => simp [dictSet, dictGet]
  | cons kv rest ih =>
    by_cases hk : kv.1 = h
    · simp [dictSet, dictGet, hk]
    · simp [dictSet, dictGet, hk, ih]

theorem dictSet_of_get_none (qs : List (Host × UpdateQueue)) (h : Host)
    (q : UpdateQueue) (hn : dictGet qs h = none) :
    dictSet qs h q = qs ++ [(h, q)] := by
  induction qs with
  | nil => rfl
  | cons kv rest ih =>
    by_cases hk : kv.1 = h
    · simp [dictGet, hk] at hn
    · rw [dictGet, if_neg hk] at hn
      rw [dictSet, if_neg hk, ih hn, List.cons_append]

theorem dictGet_mem (qs : List (Host × UpdateQueue)) (h : Host)
    (q : UpdateQueue) (hs : dictGet qs h = some q) : ∃ kv ∈ qs, kv.2 = q := by
  induction qs with
  | nil => simp [dictGet] at hs
  | cons kv rest ih =>
    by_cases hk : kv.1 = h
    · rw [dictGet, if_pos hk] at hs
      exact ⟨kv, List.mem_cons_self kv rest, by injection hs⟩
    · rw [dictGet, if_neg hk] at hs
      obtain ⟨kv1, hmem, hq⟩ := ih hs
      exact ⟨kv1, List.mem_cons_of_mem kv hmem, hq⟩

theorem sumLens_nil : sumLens [] = 0 := rfl

theorem sumLens_cons (kv : Host × UpdateQueue) (qs : List (Host × UpdateQueue)) :
    sumLens (kv :: qs) = kv.2.len + sumLens qs := by
  simp [sumLens]

theorem sumLens_append (a b : List (Host × UpdateQueue)) :
    sumLens (a ++ b) = sumLens a + sumLens b := by
  simp [sumLens]

theorem UpdateQueue.len_enqueue (q : UpdateQueue) (u : Upd) :
    (q.enqueue u).len = q.len + 1 := by
  simp [UpdateQueue.enqueue, UpdateQueue.len]

theorem sumLens_dictSet_of_get_some (qs : List (Host × UpdateQueue)) (h : Host)
    (q q' : UpdateQueue) (hs : dictGet qs h = some q) :
    sumLens (dictSet qs h q') + q.len = sumLens qs + q'.len := by
  induction qs with
  | nil => simp [dictGet] at hs
  | cons kv rest ih =>
    by_cases hk : kv.1 = h
    · rw [dictGet, if_pos hk] at hs
      have hq : kv.2 = q := by injection hs
      rw [dictSet, if_pos hk, sumLens_cons, sumLens_cons, hq]
      have hpair : ((h, q') : Host × UpdateQueue).2.len = q'.len := rfl
      rw [hpair]
      omega
    · rw [dictGet, if_neg hk] at hs
      rw [dictSet, if_neg hk, sumLens_cons, sumLens_cons]
      have := ih hs
      omega

theorem sumLens_dictSet_empty (qs : List (Host × UpdateQueue)) (h : Host)
    (h0 : sumLens qs = 0) : sumLens (dictSet qs h ⟨[]⟩) = 0 := by
  cases hq : dictGet qs h with
  | none =>
    rw [dictSet_of_get_none qs h ⟨[]⟩ hq, sumLens_append, h0]
    rfl
  | some q =>
    have := sumLens_dictSet_of_get_some qs h q ⟨[]⟩ hq
    rw [h0] at this
    have hlen : UpdateQueue.len ⟨[]⟩ = 0 := rfl
    omega

theorem sumLens_clear (qs : List (Host × UpdateQueue)) :
    sumLens (qs.map (fun kv => (kv.1, kv.2.clear))) = 0 := by
  induction qs with
  | nil => rfl
  | cons kv rest ih =>
    rw [List.map_cons, sumLens_cons, ih]
    rfl

/-! ### Helper lemmas: field preservation -/

theorem umm_queues (s : PendingWork) :
    s.update_min_and_max.queues = s.queues := rfl

theorem umm_total (s : PendingWork) :
    s.update_min_and_max.total_no_of_updates = s.total_no_of_updates := rfl

theorem umm_frozen (s : PendingWork) :
    s.update_min_and_max.frozen = s.frozen := rfl

theorem dequeue_lazy_of_get_some (s : PendingWork) (host : Host)
    (q : UpdateQueue) (hq : dictGet s.queues host = some q) :
    s.dequeue_lazy host = s := by
  unfold PendingWork.dequeue_lazy
  rw [hq]

theorem dequeue_lazy_of_get_none (s : PendingWork) (host : Host)
    (hq : dictGet s.queues host = none) :
    s.dequeue_lazy host = PendingWork.update_min_and_max
      { s with queues := dictSet s.queues host ⟨[]⟩ } := by
  unfold PendingWork.dequeue_lazy
  rw [hq]

theorem dequeue_lazy_total (s : PendingWork) (host : Host) :
    (s.dequeue_lazy host).total_no_of_updates = s.total_no_of_updates := by
  cases hq : dictGet s.queues host with
  | none => rw [dequeue_lazy_of_get_none s host hq]; rfl
  | some q => rw [dequeue_lazy_of_get_some s host q hq]

theorem dequeue_lazy_frozen (s : PendingWork) (host : Host) :
    (s.dequeue_lazy host).frozen = s.frozen := by
  cases hq : dictGet s.queues host with
  | none => rw [dequeue_lazy_of_get_none s host hq]; rfl
  | some q => rw [dequeue_lazy_of_get_some s host q hq]

theorem dequeue_lazy_get (s : PendingWork) (host : Host) :
    dictGet (s.dequeue_lazy host).queues host =
      some ((dictGet s.queues host).getD ⟨[]⟩) := by
  cases hq : dictGet s.queues host with
  | none =>
    rw [dequeue_lazy_of_get_none s host hq, umm_queues]
    exact dictGet_dictSet_self s.queues host ⟨[]⟩
  | some q => rw [dequeue_lazy_of_get_some s host q hq, hq]; rfl

theorem dequeue_lazy_pwInv (s : PendingWork) (host : Host) (h : pwInv s) :
    pwInv (s.dequeue_lazy host) := by
  cases hq : dictGet s.queues host with
  | none =>
    rw [dequeue_lazy_of_get_none s host hq]
    show s.total_no_of_updates = (sumLens (dictSet s.queues host ⟨[]⟩) : Int)
    rw [dictSet_of_get_none s.queues host ⟨[]⟩ hq, sumLens_append]
    have hnil : sumLens [(host, ⟨[]⟩)] = 0 := rfl
    rw [hnil]
    simpa using h
  | some q => rw [dequeue_lazy_of_get_some s host q hq]; exact h

/-! ### Invariant preservation -/

theorem pwInv_enqueue_insert (s : PendingWork) (u : Upd) (host : Host)
    (q : UpdateQueue)
    (hq : dictGet s.queues host = some q ∨
      (dictGet s.queues host = none ∧ q = ⟨[]⟩))
    (h : pwInv s) : pwInv (s.enqueue_insert u host q).2 := by
  have hsum : sumLens (dictSet s.queues host (q.enqueue u)) = sumLens s.queues + 1 := by
    rcases hq with hq | ⟨hq, rfl⟩
    · have hh := sumLens_dictSet_of_get_some s.queues host q (q.enqueue u) hq
      rw [UpdateQueue.len_enqueue] at hh
      omega
    · rw [dictSet_of_get_none _ _ _ hq, sumLens_append]
      have h1 : sumLens [(host, UpdateQueue.enqueue ⟨[]⟩ u)] = 1 := rfl
      omega
  show s.total_no_of_updates + 1 = (sumLens (dictSet s.queues host (q.enqueue u)) : Int)
  rw [hsum]
  push_cast
  omega

theorem enqueue_insert_frozen (s : PendingWork) (u : Upd) (host : Host)
    (q : UpdateQueue) : (s.enqueue_insert u host q).2.frozen = s.frozen := rfl

theorem pwInv_enqueue_unfrozen (s : PendingWork) (u : Upd) (host : Host)
    (h : pwInv s) : pwInv (s.enqueue_unfrozen u host).2 := by
  unfold PendingWork.enqueue_unfrozen
  split
  next hq => exact pwInv_enqueue_insert s u host ⟨[]⟩ (Or.inr ⟨hq, rfl⟩) h
  next q hq =>
    split
    next m hm =>
      split
      next hc => exact h
      next hc => exact pwInv_enqueue_insert s u host q (Or.inl hq) h
    next hm => exact pwInv_enqueue_insert s u host q (Or.inl hq) h

theorem enqueue_unfrozen_frozen (s : PendingWork) (u : Upd) (host : Host) :
    (s.enqueue_unfrozen u host).2.frozen = s.frozen := by
  unfold PendingWork.enqueue_unfrozen
  split
  next hq => rfl
  next q hq =>
    split
    next m hm =>
      split
      next hc => rfl
      next hc => rfl
    next hm => rfl

theorem pwInv_enqueue (s : PendingWork) (u : Upd) (host : Host)
    (h : pwInv s) : pwInv (s.enqueue u host).2 := by
  unfold PendingWork.enqueue
  by_cases hf : s.frozen = true
  · rw [if_pos hf]
    by_cases hl : host = s.leader
    · rw [if_pos hl]
      exact pwInv_enqueue_unfrozen { s with frozen := false } u host h
    · rw [if_neg hl]; exact h
  · rw [if_neg hf]
    exact pwInv_enqueue_unfrozen s u host h

theorem UpdateQueue.eq_of_queue_eq (a b : UpdateQueue) (h : a.queue = b.queue) :
    a = b := by
  cases a
  cases b
  simp_all

theorem pwInv_dequeue (s : PendingWork) (host : Host) (h : pwInv s) :
    pwInv (s.dequeue host).2 := by
  unfold PendingWork.dequeue
  by_cases h0 : s.total_no_of_updates = 0
  · rw [if_pos h0]; exact h
  · rw [if_neg h0]
    have hlazy := dequeue_lazy_pwInv s host h
    cases hget : ((dictGet (s.dequeue_lazy host).queues host).getD ⟨[]⟩).queue with
    | nil => exact hlazy
    | cons u us =>
      have hsome : dictGet (s.dequeue_lazy host).queues host = some ⟨u :: us⟩ := by
        rw [dequeue_lazy_get]
        rw [dequeue_lazy_get] at hget
        simp only [Option.getD_some] at hget
        rw [UpdateQueue.eq_of_queue_eq ((dictGet s.queues host).getD ⟨[]⟩)
          ⟨u :: us⟩ hget]
      have hh := sumLens_dictSet_of_get_some (s.dequeue_lazy host).queues host
        ⟨u :: us⟩ ⟨us⟩ hsome
      have hlen1 : UpdateQueue.len ⟨u :: us⟩ = us.length + 1 := rfl
      have hlen2 : UpdateQueue.len ⟨us⟩ = us.length := rfl
      show (s.dequeue_lazy host).total_no_of_updates - 1 =
        (sumLens (dictSet (s.dequeue_lazy host).queues host ⟨us⟩) : Int)
      rw [pwInv] at hlazy
      omega

theorem dequeue_frozen (s : PendingWork) (host : Host) :
    (s.dequeue host).2.frozen = s.frozen := by
  unfold PendingWork.dequeue
  by_cases h0 : s.total_no_of_updates = 0
  · rw [if_pos h0]
  · rw [if_neg h0]
    cases hget : ((dictGet (s.dequeue_lazy host).queues host).getD ⟨[]⟩).queue with
    | nil => exact dequeue_lazy_frozen s host
    | cons u us =>
      show (s.dequeue_lazy host).frozen = s.frozen
      exact dequeue_lazy_frozen s host

theorem sumLens_selectAndDequeue (qs : List (Host × UpdateQueue)) (r : Nat)
    (u : Upd) (qs' : List (Host × UpdateQueue))
    (h : selectAndDequeue qs r = some (u, qs')) : sumLens qs' + 1 = sumLens qs := by
  induction qs generalizing r qs' with
  | nil => simp [selectAndDequeue] at h
  | cons kv rest ih =>
    obtain ⟨hh, q⟩ := kv
    rw [selectAndDequeue] at h
    by_cases hr : r < q.len
    · rw [if_pos hr] at h
      cases hqq : q.queue with
      | nil =>
        rw [hqq] at h
        simp at h
      | cons u0 us =>
        rw [hqq] at h
        have hu : u0 = u ∧ ((hh, ⟨us⟩) :: rest : List (Host × UpdateQueue)) = qs' := by
          constructor
          · have := congrArg (fun p => (Option.getD p (u, qs')).1) h
            simpa using this
          · have := congrArg (fun p => (Option.getD p (u, qs')).2) h
            simpa using this
        rw [← hu.2, sumLens_cons, sumLens_cons]
        have h1 : ((hh, (⟨us⟩ : UpdateQueue)) : Host × UpdateQueue).2.len = us.length := rfl
        have h2 : ((hh, q) : Host × UpdateQueue).2.len = us.length + 1 := by
          show q.len = us.length + 1
          rw [UpdateQueue.len, hqq]
          rfl
        omega
    · rw [if_neg hr] at h
      cases hsel : selectAndDequeue rest (r - q.len) with
      | none => rw [hsel] at h; simp at h
      | some p =>
        obtain ⟨u1, rest1⟩ := p
        rw [hsel] at h
        have hu : u1 = u ∧ ((hh, q) :: rest1 : List (Host × UpdateQueue)) = qs' := by
          constructor
          · have := congrArg (fun p => (Option.getD p (u, qs')).1) h
            simpa using this
          · have := congrArg (fun p => (Option.getD p (u, qs')).2) h
            simpa using this
        have hu1 := hu.1
        subst hu1
        have hrec := ih (r - q.len) rest1 hsel
        rw [← hu.2, sumLens_cons, sumLens_cons]
        omega

theorem pwInv_dequeue_random (s : PendingWork) (r : Nat) (h : pwInv s) :
    pwInv (s.dequeue_random r).2 := by
  unfold PendingWork.dequeue_random
  by_cases h0 : s.total_no_of_updates = 0
  · rw [if_pos h0]; exact h
  · rw [if_neg h0]
    cases hsel : selectAndDequeue s.queues r with
    | none => exact h
    | some p =>
      obtain ⟨u, qs'⟩ := p
      have := sumLens_selectAndDequeue s.queues r u qs' hsel
      show s.total_no_of_updates - 1 = (sumLens qs' : Int)
      rw [pwInv] at h
      omega

theorem dequeue_random_frozen (s : PendingWork) (r : Nat) :
    (s.dequeue_random r).2.frozen = s.frozen := by
  unfold PendingWork.dequeue_random
  by_cases h0 : s.total_no_of_updates = 0
  · rw [if_pos h0]
  · rw [if_neg h0]
    cases hsel : selectAndDequeue s.queues r with
    | none => rfl
    | some p => obtain ⟨u, qs'⟩ := p; rfl

theorem allEmpty_dequeue_every_queue (s : PendingWork) :
    allEmpty s.dequeue_every_queue := by
  intro kv hkv
  simp only [PendingWork.dequeue_every_queue, List.mem_map] at hkv
  obtain ⟨kv0, _, hkv0⟩ := hkv
  rw [← hkv0]
  rfl

theorem total_dequeue_every_queue (s : PendingWork) (h : pwInv s) :
    s.dequeue_every_queue.total_no_of_updates = 0 := by
  show s.total_no_of_updates - (sumLens s.queues : Int) = 0
  rw [pwInv] at h
  omega

theorem pwInv_dequeue_every_queue (s : PendingWork) (h : pwInv s) :
    pwInv s.dequeue_every_queue := by
  show s.total_no_of_updates - (sumLens s.queues : Int) =
    (sumLens (s.queues.map (fun kv => (kv.1, kv.2.clear))) : Int)
  rw [sumLens_clear, pwInv] at *
  omega

theorem goodState_applyOp (s : PendingWork) (op : Op) (h : goodState s) :
    goodState (applyOp s op) := by
  obtain ⟨hinv, hfr⟩ := h
  cases op with
  | enq u host =>
    show goodState (s.enqueue u host).2
    by_cases hf : s.frozen = true
    · by_cases hl : host = s.leader
      · have he : (s.enqueue u host).2 =
            (PendingWork.enqueue_unfrozen { s with frozen := false } u host).2 := by
          unfold PendingWork.enqueue
          rw [if_pos hf, if_pos hl]
        rw [he]
        refine ⟨pwInv_enqueue_unfrozen _ u host hinv, ?_⟩
        intro hfz
        rw [enqueue_unfrozen_frozen] at hfz
        simp at hfz
      · have he : (s.enqueue u host).2 = s := by
          unfold PendingWork.enqueue
          rw [if_pos hf, if_neg hl]
        rw [he]
        exact ⟨hinv, hfr⟩
    · have he : (s.enqueue u host).2 = (s.enqueue_unfrozen u host).2 := by
        unfold PendingWork.enqueue
        rw [if_neg hf]
      rw [he]
      refine ⟨pwInv_enqueue_unfrozen s u host hinv, ?_⟩
      intro hfz
      rw [enqueue_unfrozen_frozen] at hfz
      exact absurd hfz hf
  | deq host =>
    show goodState (s.dequeue host).2
    by_cases hf : s.frozen = true
    · have h0 : s.total_no_of_updates = 0 := (hfr hf).2
      have he : (s.dequeue host).2 = s := by
        unfold PendingWork.dequeue
        rw [if_pos h0]
      rw [he]
      exact ⟨hinv, hfr⟩
    · refine ⟨pwInv_dequeue s host hinv, ?_⟩
      intro hfz
      rw [dequeue_frozen] at hfz
      exact absurd hfz hf
  | deqRand r =>
    show goodState (s.dequeue_random r).2
    by_cases hf : s.frozen = true
    · have h0 : s.total_no_of_updates = 0 := (hfr hf).2
      have he : (s.dequeue_random r).2 = s := by
        unfold PendingWork.dequeue_random
        rw [if_pos h0]
      rw [he]
      exact ⟨hinv, hfr⟩
    · refine ⟨pwInv_dequeue_random s r hinv, ?_⟩
      intro hfz
      rw [dequeue_random_frozen] at hfz
      exact absurd hfz hf
  | deqEvery =>
    show goodState s.dequeue_every_queue
    exact ⟨pwInv_dequeue_every_queue s hinv,
      fun _ => ⟨allEmpty_dequeue_every_queue s, total_dequeue_every_queue s hinv⟩⟩
  | clearAll =>
    show goodState s.clear_all
    have hfreeze : pwInv s.freeze_node := hinv
    exact ⟨pwInv_dequeue_every_queue s.freeze_node hfreeze,
      fun _ => ⟨allEmpty_dequeue_every_queue s.freeze_node,
        total_dequeue_every_queue s.freeze_node hfreeze⟩⟩

theorem sumLens_setup_fold (others : List Host) (acc : List (Host × UpdateQueue))
    (h0 : sumLens acc = 0) :
    sumLens (others.foldl (fun a h => dictSet a h ⟨[]⟩) acc) = 0 := by
  induction others generalizing acc with
  | nil => exact h0
  | cons x xs ih =>
    rw [List.foldl_cons]
    exact ih (dictSet acc x ⟨[]⟩) (sumLens_dictSet_empty acc x h0)

theorem setup_frozen (ratio_k : Nat) (me : Host) (others : List Host)
    (leader : Host) : ((PendingWork.init ratio_k).setup me others leader).frozen = false := rfl

theorem setup_total (ratio_k : Nat) (me : Host) (others : List Host)
    (leader : Host) :
    ((PendingWork.init ratio_k).setup me others leader).total_no_of_updates = 0 := rfl

theorem goodState_setup (ratio_k : Nat) (me : Host) (others : List Host)
    (leader : Host) : goodState ((PendingWork.init ratio_k).setup me others leader) := by
  constructor
  · show (0 : Int) = (sumLens (others.foldl (fun a h => dictSet a h ⟨[]⟩)
      (dictSet [] me ⟨[]⟩)) : Int)
    rw [sumLens_setup_fold others (dictSet [] me ⟨[]⟩) rfl]
    rfl
  · intro hf
    rw [setup_frozen] at hf
    simp at hf

theorem goodState_runOps (s : PendingWork) (ops : List Op) (h : goodState s) :
    goodState (runOps s ops) := by
  induction ops generalizing s with
  | nil => exact h
  | cons op ops ih =>
    rw [runOps, List.foldl_cons]
    exact ih (applyOp s op) (goodState_applyOp s op h)

theorem reachable_goodState (s : PendingWork) (h : Reachable s) : goodState s := by
  induction h with
  | setup ratio_k me others leader => exact goodState_setup ratio_k me others leader
  | step hr op ih => exact goodState_applyOp _ op ih

/-- C1: starting from any freshly set-up registry, the counter
`total_no_of_updates` equals the sum of the lengths of all queues after
every sequence of operations (enqueue, dequeue, dequeue_random,
dequeue_every_queue, clear_all) — every intermediate point of a trace is
itself `runOps` of a prefix, and calls that raise `EmptyQueueError` or
`DevicePushbackError` keep their (possibly partially mutated) post-state
within the invariant. -/
theorem total_updates_equals_sum_all_traces (ratio_k : Nat) (me : Host)
    (others : List Host) (leader : Host) (ops : List Op) :
    pwInv (runOps ((PendingWork.init ratio_k).setup me others leader) ops) :=
  (goodState_runOps _ ops (goodState_setup ratio_k me others leader)).1

theorem enqueue_unfrozen_on_empty (t : PendingWork) (u : Upd) (host : Host)
    (hempty : dictGet t.queues host = none ∨ dictGet t.queues host = some ⟨[]⟩) :
    t.enqueue_unfrozen u host = (.ok (), PendingWork.update_min_and_max { t with
      queues := dictSet t.queues host ⟨[u]⟩,
      total_no_of_updates := t.total_no_of_updates + 1 }) := by
  unfold PendingWork.enqueue_unfrozen
  rcases hempty with hq | hq
  · rw [hq]
    rfl
  · rw [hq]
    cases hm : t.min_queue_len
    · rfl
    · rfl

/-- C4: for every reachable state, `clear_all` zeroes the counter and sets
the frozen flag; while frozen, a non-leader enqueue returns without error
and without any state change; and a leader enqueue while frozen is accepted
— the record lands as the sole element of the leader's queue, the counter
is 1, `frozen` is cleared, and every subsequent enqueue takes the normal
(unfrozen) admission path. -/
theorem freeze_clear_barrier (s : PendingWork) (hr : Reachable s) :
    (s.clear_all.total_no_of_updates = 0 ∧ s.clear_all.frozen = true) ∧
    (∀ u host, s.frozen = true → host ≠ s.leader →
      s.enqueue u host = (.ok (), s)) ∧
    (∀ u, s.frozen = true → ∃ s1,
      s.enqueue u s.leader = (.ok (), s1) ∧ s1.frozen = false ∧
      dictGet s1.queues s.leader = some ⟨[u]⟩ ∧ s1.total_no_of_updates = 1 ∧
      ∀ u2 host2, s1.enqueue u2 host2 = s1.enqueue_unfrozen u2 host2) := by
  obtain ⟨hinv, hfr⟩ := reachable_goodState s hr
  refine ⟨⟨total_dequeue_every_queue s.freeze_node hinv, rfl⟩, ?_, ?_⟩
  · intro u host hf hl
    unfold PendingWork.enqueue
    rw [if_pos hf, if_neg hl]
  · intro u hf
    obtain ⟨hempty, htot⟩ := hfr hf
    have hq : dictGet s.queues s.leader = none ∨
        dictGet s.queues s.leader = some ⟨[]⟩ := by
      cases hg : dictGet s.queues s.leader with
      | none => exact Or.inl rfl
      | some q =>
        obtain ⟨kv, hmem, hkv⟩ := dictGet_mem s.queues s.leader q hg
        right
        have hq0 : q = ⟨[]⟩ := by
          rw [← hkv]
          exact hempty kv hmem
        rw [hq0]
    have henq : s.enqueue u s.leader =
        PendingWork.enqueue_unfrozen { s with frozen := false } u s.leader := by
      unfold PendingWork.enqueue
      rw [if_pos hf, if_pos rfl]
    refine ⟨PendingWork.update_min_and_max { { s with frozen := false } with
        queues := dictSet s.queues s.leader ⟨[u]⟩,
        total_no_of_updates := s.total_no_of_updates + 1 }, ?_, ?_, ?_, ?_, ?_⟩
    · rw [henq, enqueue_unfrozen_on_empty { s with frozen := false } u s.leader hq]
    · rfl
    · exact dictGet_dictSet_self s.queues s.leader ⟨[u]⟩
    · show s.total_no_of_updates + 1 = 1
      omega
    · intro u2 host2
      unfold PendingWork.enqueue
      rw [if_neg]
      intro hcon
      exact Bool.false_ne_true hcon

/-- Witness for C4 on the reachable frozen state `C4state` (a fresh
two-host registry right after `clear_all`): a non-leader enqueue is a
silent no-op, the counter is zero after a further `clear_all`, and the
leader's enqueue is accepted and unfreezes. -/
theorem freeze_clear_barrier_witness :
    C4state.frozen = true ∧ C4state.enqueue 5 "b" = (.ok (), C4state) ∧
    C4state.clear_all.total_no_of_updates = 0 ∧
    (∃ s1, C4state.enqueue 5 C4state.leader = (.ok (), s1) ∧ s1.frozen = false ∧
      dictGet s1.queues C4state.leader = some ⟨[5]⟩ ∧ s1.total_no_of_updates = 1 ∧
      ∀ u2 host2, s1.enqueue u2 host2 = s1.enqueue_unfrozen u2 host2) := by
  have h := freeze_clear_barrier C4state
    (Reachable.step (Reachable.setup 100 "a" ["b"] "a") Op.clearAll)
  exact ⟨rfl, h.2.1 5 "b" rfl (by decide), h.1.1, h.2.2 5 rfl⟩

/-- C7: with the counting invariant, `dequeue(host)` fails with
`EmptyQueueError` and changes nothing when the counter is zero; fails with
`EmptyQueueError` with the counter unchanged (but the host's empty queue
now lazily present) when the counter is non-zero and the host's queue is
absent or empty; and otherwise removes and returns the oldest record of
that host's queue, decrementing the counter by exactly 1. -/
theorem dequeue_spec (s : PendingWork) (host : Host) (hinv : pwInv s) :
    (s.total_no_of_updates = 0 → s.dequeue host = (.error .EmptyQueueError, s)) ∧
    (∀ u us, s.total_no_of_updates ≠ 0 → dictGet s.queues host = some ⟨u :: us⟩ →
      (s.dequeue host).1 = .ok u ∧
      (s.dequeue host).2.total_no_of_updates = s.total_no_of_updates - 1 ∧
      dictGet (s.dequeue host).2.queues host = some ⟨us⟩) ∧
    (s.total_no_of_updates ≠ 0 →
      (dictGet s.queues host = none ∨ dictGet s.queues host = some ⟨[]⟩) →
      (s.dequeue host).1 = .error .EmptyQueueError ∧
      (s.dequeue host).2.total_no_of_updates = s.total_no_of_updates ∧
      dictGet (s.dequeue host).2.queues host = some ⟨[]⟩) := by
  refine ⟨?_, ?_, ?_⟩
  · intro h0
    unfold PendingWork.dequeue
    rw [if_pos h0]
  · intro u us h0 hq
    have hlazy : s.dequeue_lazy host = s :=
      dequeue_lazy_of_get_some s host ⟨u :: us⟩ hq
    have hdeq : s.dequeue host = (.ok u, PendingWork.update_min_and_max { s with
        queues := dictSet s.queues host ⟨us⟩,
        total_no_of_updates := s.total_no_of_updates - 1 }) := by
      unfold PendingWork.dequeue
      rw [if_neg h0, hlazy, hq]
      rfl
    rw [hdeq]
    exact ⟨rfl, rfl, dictGet_dictSet_self s.queues host ⟨us⟩⟩
  · intro h0 hq
    have hget : dictGet (s.dequeue_lazy host).queues host = some ⟨[]⟩ := by
      rw [dequeue_lazy_get]
      rcases hq with hq | hq <;> rw [hq] <;> rfl
    have hdeq : s.dequeue host = (.error .EmptyQueueError, s.dequeue_lazy host) := by
      unfold PendingWork.dequeue
      rw [if_neg h0, hget]
      rfl
    rw [hdeq]
    exact ⟨rfl, dequeue_lazy_total s host, hget⟩

/-- Witness for C7 on `C5state`: dequeuing host "b" returns the oldest
record 20, decrements the counter, and leaves [30] queued for "b". -/
theorem dequeue_spec_witness :
    (C5state.dequeue "b").1 = .ok 20 ∧
    (C5state.dequeue "b").2.total_no_of_updates =
      C5state.total_no_of_updates - 1 ∧
    dictGet (C5state.dequeue "b").2.queues "b" = some ⟨[30]⟩ :=
  (dequeue_spec C5state "b" (by decide)).2.1 20 [30] (by decide) (by decide)

/-! ### The weighted random selection of `dequeue_random` -/

theorem selectIndex_eq_some_iff (qs : List (Host × UpdateQueue)) (r i : Nat) :
    selectIndex qs r = some i ↔
      i < qs.length ∧ sumLens (qs.take i) ≤ r ∧ r < sumLens (qs.take (i+1)) := by
  induction qs generalizing r i with
  | nil => simp [selectIndex]
  | cons kv rest ih =>
    obtain ⟨hh, q⟩ := kv
    rw [selectIndex]
    cases i with
    | zero =>
      by_cases hr : r < q.len
      · rw [if_pos hr]
        constructor
        · intro _
          refine ⟨Nat.succ_pos _, Nat.zero_le r, ?_⟩
          simp only [List.take_succ_cons, List.take_zero, sumLens_cons, sumLens_nil]
          omega
        · intro _
          rfl
      · rw [if_neg hr]
        constructor
        · intro hsel
          exfalso
          cases hsel2 : selectIndex rest (r - q.len) with
          | none => rw [hsel2] at hsel; simp at hsel
          | some j => rw [hsel2] at hsel; simp at hsel
        · rintro ⟨-, -, h2⟩
          exfalso
          simp only [List.take_succ_cons, List.take_zero, sumLens_cons,
            sumLens_nil] at h2
          omega
    | succ i =>
      by_cases hr : r < q.len
      · rw [if_pos hr]
        constructor
        · intro hsel
          exact absurd hsel (by simp)
        · rintro ⟨-, h1, -⟩
          exfalso
          simp only [List.take_succ_cons, sumLens_cons] at h1
          omega
      · rw [if_neg hr]
        have hmap : ((selectIndex rest (r - q.len)).map (· + 1) = some (i+1)) ↔
            selectIndex rest (r - q.len) = some i := by
          cases hsel2 : selectIndex rest (r - q.len) with
          | none => simp
          | some j => simp
        rw [hmap, ih (r - q.len) i]
        have hq : q.len ≤ r := Nat.le_of_not_lt hr
        constructor
        · rintro ⟨hi, h1, h2⟩
          simp only [List.length_cons, List.take_succ_cons, sumLens_cons]
          exact ⟨by omega, by omega, by omega⟩
        · rintro ⟨hi, h1, h2⟩
          simp only [List.length_cons, List.take_succ_cons, sumLens_cons] at hi h1 h2
          exact ⟨by omega, by omega, by omega⟩

theorem sumLens_take_succ (qs : List (Host × UpdateQueue)) (i : Nat)
    (hi : i < qs.length) :
    sumLens (qs.take (i+1)) = sumLens (qs.take i) + (qs.get ⟨i, hi⟩).2.len := by
  induction qs generalizing i with
  | nil => simp at hi
  | cons kv rest ih =>
    cases i with
    | zero =>
      have hget : (kv :: rest).get ⟨0, hi⟩ = kv := rfl
      simp only [List.take_succ_cons, List.take_zero, sumLens_cons, sumLens_nil, hget]
      omega
    | succ i =>
      have hi2 : i < rest.length := by
        simp only [List.length_cons] at hi
        omega
      have hget : (kv :: rest).get ⟨i + 1, hi⟩ = rest.get ⟨i, hi2⟩ := rfl
      simp only [List.take_succ_cons, sumLens_cons, hget]
      rw [ih i hi2]
      omega

theorem sumLens_take_le (qs : List (Host × UpdateQueue)) (i : Nat) :
    sumLens (qs.take i) ≤ sumLens qs := by
  have hsplit := sumLens_append (qs.take i) (qs.drop i)
  rw [List.take_append_drop] at hsplit
  omega

/-- Each position `i` of the registry is selected for exactly `len(queue i)`
of the possible draws `r < sumLens qs`: queue selection is weighted by
queue length. -/
theorem selectIndex_count (qs : List (Host × UpdateQueue)) (i : Nat)
    (hi : i < qs.length) :
    ((Finset.range (sumLens qs)).filter (fun r => selectIndex qs r = some i)).card
      = (qs.get ⟨i, hi⟩).2.len := by
  have hsub : sumLens (qs.take (i+1)) ≤ sumLens qs := sumLens_take_le qs (i+1)
  have hfil : (Finset.range (sumLens qs)).filter (fun r => selectIndex qs r = some i)
      = Finset.Ico (sumLens (qs.take i)) (sumLens (qs.take (i+1))) := by
    ext r
    simp only [Finset.mem_filter, Finset.mem_range, Finset.mem_Ico,
      selectIndex_eq_some_iff]
    constructor
    · rintro ⟨-, -, h1, h2⟩
      exact ⟨h1, h2⟩
    · rintro ⟨h1, h2⟩
      exact ⟨by omega, hi, h1, h2⟩
  rw [hfil, Nat.card_Ico, sumLens_take_succ qs i hi]
  omega

theorem selectAndDequeue_of_lt (qs : List (Host × UpdateQueue)) (r : Nat)
    (hr : r < sumLens qs) :
    ∃ i, ∃ hi : i < qs.length, ∃ u us,
      selectIndex qs r = some i ∧ (qs.get ⟨i, hi⟩).2.queue = u :: us ∧
      selectAndDequeue qs r = some (u, qs.set i ((qs.get ⟨i, hi⟩).1, ⟨us⟩)) := by
  induction qs generalizing r with
  | nil => simp [sumLens_nil] at hr
  | cons kv rest ih =>
    obtain ⟨hh, q⟩ := kv
    by_cases hrq : r < q.len
    · have hq : ∃ u us, q.queue = u :: us := by
        cases hqq : q.queue with
        | nil =>
          rw [UpdateQueue.len, hqq] at hrq
          simp at hrq
        | cons a b => exact ⟨a, b, rfl⟩
      obtain ⟨u, us, hqq⟩ := hq
      refine ⟨0, by simp, u, us, ?_, ?_, ?_⟩
      · rw [selectIndex, if_pos hrq]
      · simpa using hqq
      · rw [selectAndDequeue, if_pos hrq, hqq]
        simp
    · have hr2 : r - q.len < sumLens rest := by
        rw [sumLens_cons] at hr
        dsimp only at hr
        omega
      obtain ⟨i, hi, u, us, hsel, hget, hdeq⟩ := ih (r - q.len) hr2
      refine ⟨i + 1, by simpa using Nat.succ_lt_succ hi, u, us, ?_, ?_, ?_⟩
      · rw [selectIndex, if_neg hrq, hsel]
        rfl
      · simpa using hget
      · rw [selectAndDequeue, if_neg hrq, hdeq]
        simp

/-- C5: under the counting invariant, with a positive counter every
possible draw `r` yields a record — the `ExtraFatal` internal-invariant
branch is unreachable — taken from the queue at position `selectIndex`,
each position being selected for exactly its queue's length worth of
draws (selection weighted by queue length); with a zero counter,
`dequeue_random` fails with `EmptyQueueError` and changes no state. -/
theorem dequeue_random_spec (s : PendingWork) (hinv : pwInv s) :
    (s.total_no_of_updates = 0 →
      ∀ r, s.dequeue_random r = (.error .EmptyQueueError, s)) ∧
    (∀ r : Nat, (r : Int) < s.total_no_of_updates →
      ∃ i, ∃ hi : i < s.queues.length, ∃ u us,
        selectIndex s.queues r = some i ∧
        (s.queues.get ⟨i, hi⟩).2.queue = u :: us ∧
        s.dequeue_random r = (.ok u, PendingWork.update_min_and_max { s with
          queues := s.queues.set i ((s.queues.get ⟨i, hi⟩).1, ⟨us⟩),
          total_no_of_updates := s.total_no_of_updates - 1 })) ∧
    (∀ i, ∀ hi : i < s.queues.length,
      ((Finset.range (sumLens s.queues)).filter
        (fun r => selectIndex s.queues r = some i)).card
        = (s.queues.get ⟨i, hi⟩).2.len) := by
  refine ⟨?_, ?_, ?_⟩
  · intro h0 r
    unfold PendingWork.dequeue_random
    rw [if_pos h0]
  · intro r hr
    have hrn : r < sumLens s.queues := by
      rw [pwInv] at hinv
      omega
    have h0 : ¬ s.total_no_of_updates = 0 := by
      rw [pwInv] at hinv
      omega
    obtain ⟨i, hi, u, us, hsel, hget, hdeq⟩ := selectAndDequeue_of_lt s.queues r hrn
    refine ⟨i, hi, u, us, hsel, hget, ?_⟩
    unfold PendingWork.dequeue_random
    rw [if_neg h0, hdeq]
  · intro i hi
    exact selectIndex_count s.queues i hi

/-- Witness for C5 on `C5state` (queues of lengths 1 and 2, counter 3):
position 1 is drawn for exactly 2 of the 3 possible draws. -/
theorem dequeue_random_spec_witness :
    ((Finset.range (sumLens C5state.queues)).filter
      (fun r => selectIndex C5state.queues r = some 1)).card
      = (C5state.queues.get ⟨1, by decide⟩).2.len :=
  (dequeue_random_spec C5state (by decide)).2.2 1 (by decide)
